import Mathlib

/-!
# Verification of the tiny_forth VM and parser

A shallow embedding of `src/main.rs`: a stack-based virtual machine
(`stepVM`, `runFuel`) and the single-pass parser/assembler (`parseLoop`,
`finalize`).  The evaluation stack is a `List Int` whose head is the top
of the Rust `Vec` (the last pushed element).  Signed 32-bit arithmetic is
modelled by `wrap32`; the `as isize` / `as usize` casts used for branch
targets are modelled by `toIsize` / `toUsize` on 64-bit ranges.
-/

namespace TinyForth

/-- Two's-complement wrap of an integer into the `i32` range. -/
def wrap32 (x : Int) : Int := (x + 2 ^ 31) % 2 ^ 32 - 2 ^ 31

/-- Reinterpretation of a `usize` value as `isize` (two's complement, 64-bit). -/
def toIsize (n : Nat) : Int := if n < 2 ^ 63 then (n : Int) else (n : Int) - 2 ^ 64

/-- Cast of a (possibly negative) `isize` value to `usize` (wraps mod `2^64`). -/
def toUsize (x : Int) : Nat := (x % (2 ^ 64 : Int)).toNat

/-- Branch-target computation `((self.ip as isize) + offset) as usize`. -/
def branchTarget (ip : Nat) (off : Int) : Nat := toUsize (toIsize ip + off)

/-- The instruction set of `src/main.rs` (`enum Instruction`). -/
inductive Instruction where
  | Push (value : Int)
  | Add
  | Mul
  | Dup
  | Drop
  | Swap
  | Over
  | Rot
  | Nip
  | Tuck
  | TwoDup
  | TwoDrop
  | TwoSwap
  | Depth
  | Jump (offset : Int)
  | IfZero (offset : Int)
  | Call (addr : Nat)
  | CallWord (name : String)
  | Return
  | Halt
  deriving DecidableEq, Repr

/-- Association-list model of the `HashMap<String, usize>` dictionary:
`HashMap::insert` overwrites, which we model by consing the new binding in
front and looking up the first match. -/
def lookupD : List (String × Nat) → String → Option Nat
  | [], _ => none
  | (k, v) :: rest, n => if k = n then some v else lookupD rest n

/-- The VM state (`struct VM`): evaluation stack (head = top), immutable
program, instruction pointer, return stack (head = top), dictionary. -/
structure VMState where
  stack : List Int
  program : List Instruction
  ip : Nat
  return_stack : List Nat
  dictionary : List (String × Nat)
  deriving DecidableEq, Repr

/-- `VM::new`: empty stacks, instruction pointer 0, empty dictionary. -/
def VMState.new (program : List Instruction) : VMState :=
  { stack := [], program := program, ip := 0, return_stack := [], dictionary := [] }

/-- The fatal conditions of the VM (`expect`/`panic!` calls in `run`). -/
inductive VMError where
  | StackUnderflow
  | ReturnStackUnderflow
  | UnknownWord
  deriving DecidableEq, Repr

/-- Result of one iteration of the `while` loop in `VM::run`. -/
inductive StepResult where
  | next (s : VMState)
  | halted (s : VMState)
  | fatal (e : VMError)
  deriving DecidableEq, Repr

/-- One iteration of the `while self.ip < self.program.len()` loop of
`VM::run`: `halted` when the loop condition fails or `Halt` breaks,
`fatal` on a panic, otherwise `next` with the successor state. -/
def stepVM (s : VMState) : StepResult :=
  match s.program[s.ip]? with
  | none => .halted s
  | some instr =>
    match instr with
    | .Push v => .next { s with stack := v :: s.stack, ip := s.ip + 1 }
    | .Add =>
      match s.stack with
      | b :: a :: r => .next { s with stack := wrap32 (a + b) :: r, ip := s.ip + 1 }
      | _ => .fatal .StackUnderflow
    | .Mul =>
      match s.stack with
      | b :: a :: r => .next { s with stack := wrap32 (a * b) :: r, ip := s.ip + 1 }
      | _ => .fatal .StackUnderflow
    | .Dup =>
      match s.stack with
      | t :: r => .next { s with stack := t :: t :: r, ip := s.ip + 1 }
      | _ => .fatal .StackUnderflow
    | .Drop =>
      match s.stack with
      | _ :: r => .next { s with stack := r, ip := s.ip + 1 }
      | _ => .fatal .StackUnderflow
    | .Swap =>
      match s.stack with
      | b :: a :: r => .next { s with stack := a :: b :: r, ip := s.ip + 1 }
      | _ => .fatal .StackUnderflow
    | .Over =>
      match s.stack with
      | b :: a :: r => .next { s with stack := a :: b :: a :: r, ip := s.ip + 1 }
      | _ => .fatal .StackUnderflow
    | .Rot =>
      match s.stack with
      | c :: b :: a :: r => .next { s with stack := a :: c :: b :: r, ip := s.ip + 1 }
      | _ => .fatal .StackUnderflow
    | .Nip =>
      match s.stack with
      | b :: _ :: r => .next { s with stack := b :: r, ip := s.ip + 1 }
      | _ => .fatal .StackUnderflow
    | .Tuck =>
      match s.stack with
      | b :: a :: r => .next { s with stack := b :: a :: b :: r, ip := s.ip + 1 }
      | _ => .fatal .StackUnderflow
    | .TwoDup =>
      match s.stack with
      | b :: a :: r => .next { s with stack := b :: a :: b :: a :: r, ip := s.ip + 1 }
      | _ => .fatal .StackUnderflow
    | .TwoDrop =>
      match s.stack with
      | _ :: _ :: r => .next { s with stack := r, ip := s.ip + 1 }
      | _ => .fatal .StackUnderflow
    | .TwoSwap =>
      match s.stack with
      | d :: c :: b :: a :: r => .next { s with stack := b :: a :: d :: c :: r, ip := s.ip + 1 }
      | _ => .fatal .StackUnderflow
    | .Depth => .next { s with stack := wrap32 s.stack.length :: s.stack, ip := s.ip + 1 }
    | .Call addr => .next { s with return_stack := (s.ip + 1) :: s.return_stack, ip := addr }
    | .CallWord name =>
      match lookupD s.dictionary name with
      | none => .fatal .UnknownWord
      | some addr => .next { s with return_stack := (s.ip + 1) :: s.return_stack, ip := addr }
    | .Return =>
      match s.return_stack with
      | ret :: rs => .next { s with return_stack := rs, ip := ret }
      | [] => .fatal .ReturnStackUnderflow
    | .IfZero off =>
      match s.stack with
      | cond :: r =>
        if cond = 0 then .next { s with stack := r, ip := branchTarget s.ip off }
        else .next { s with stack := r, ip := s.ip + 1 }
      | [] => .fatal .StackUnderflow
    | .Jump off => .next { s with ip := branchTarget s.ip off }
    | .Halt => .halted s

/-- Outcome of `VM::run` under a fuel bound. -/
inductive RunResult where
  | halted (s : VMState)
  | fatal (e : VMError)
  | outOfFuel (s : VMState)
  deriving DecidableEq, Repr

/-- Fuel-indexed unfolding of the `VM::run` loop. -/
def runFuel : Nat → VMState → RunResult
  | 0, s => .outOfFuel s
  | fuel + 1, s =>
    match stepVM s with
    | .next s' => runFuel fuel s'
    | .halted s' => .halted s'
    | .fatal e => .fatal e

/-! ## Parser / assembler (`struct Parser` in `src/main.rs`) -/

/-- Accumulate decimal digits; fails on the first non-digit character. -/
def digitsVal (acc : Nat) : List Char → Option Nat
  | [] => some acc
  | c :: rest => if c.isDigit then digitsVal (acc * 10 + (c.toNat - 48)) rest else none

/-- A non-empty run of decimal digits, as a natural number. -/
def parseDigits : List Char → Option Nat
  | [] => none
  | c :: rest => if c.isDigit then digitsVal (c.toNat - 48) rest else none

/-- Model of Rust `str::parse::<i32>`: optional sign, at least one digit,
value within the `i32` range. -/
def parseI32 (s : String) : Option Int :=
  match s.toList with
  | '+' :: rest =>
    match parseDigits rest with
    | some n => if n ≤ 2 ^ 31 - 1 then some (n : Int) else none
    | none => none
  | '-' :: rest =>
    match parseDigits rest with
    | some n => if n ≤ 2 ^ 31 then some (-(n : Int)) else none
    | none => none
  | cs =>
    match parseDigits cs with
    | some n => if n ≤ 2 ^ 31 - 1 then some (n : Int) else none
    | none => none

/-- Splitting a character list on whitespace, accumulating the current
token in reverse; empty pieces are dropped, as `split_whitespace` does. -/
def tokenizeChars : List Char → List Char → List String
  | acc, [] => if acc = [] then [] else [String.mk acc.reverse]
  | acc, c :: rest =>
    if c.isWhitespace then
      if acc = [] then tokenizeChars [] rest
      else String.mk acc.reverse :: tokenizeChars [] rest
    else tokenizeChars (c :: acc) rest

/-- Model of Rust `split_whitespace`: maximal whitespace-free runs, in
order, with empty pieces dropped. -/
def tokenize (s : String) : List String := tokenizeChars [] s.toList

/-- The instruction emitted for a non-delimiter token (the `word` arm of
`Parser::parse`): integer literal, recognized built-in, or `CallWord`. -/
def tokInstr (w : String) : Instruction :=
  match parseI32 w with
  | some n => .Push n
  | none =>
    match w with
    | "dup" => .Dup
    | "drop" => .Drop
    | "swap" => .Swap
    | "over" => .Over
    | "+" => .Add
    | "*" => .Mul
    | "depth" => .Depth
    | _ => .CallWord w

/-- The persistent fields of `struct Parser`. -/
structure ParserState where
  main : List Instruction
  definitions : List Instruction
  dictionary : List (String × Nat)
  deriving DecidableEq, Repr

/-- The token loop of `Parser::parse`.  `defining`/`buffer` are the local
variables of the Rust loop; the `Except` failures are its `expect`/`panic!`
calls. -/
def parseLoop : List String → Option String → List Instruction → ParserState →
    Except String ParserState
  | [], _, _, p => .ok p
  | t :: rest, defining, buffer, p =>
    if t = ":" then
      match rest with
      | [] => .error "Expected word name after colon"
      | name :: rest2 => parseLoop rest2 (some name) [] p
    else if t = ";" then
      match defining with
      | some name =>
        parseLoop rest none []
          { p with
            dictionary := (name, p.main.length + p.definitions.length + 1) :: p.dictionary,
            definitions := p.definitions ++ buffer ++ [.Return] }
      | none => .error "Unexpected semicolon outside of word definition"
    else
      match defining with
      | some d => parseLoop rest (some d) (buffer ++ [tokInstr t]) p
      | none => parseLoop rest none buffer { p with main := p.main ++ [tokInstr t] }

/-- `Parser::new()` followed by `Parser::parse(input)`. -/
def parseText (input : String) : Except String ParserState :=
  parseLoop (tokenize input) none [] { main := [], definitions := [], dictionary := [] }

/-- `Parser::finalize`: main body, then the implicit `Halt`, then the
accumulated definitions; the dictionary is returned unchanged. -/
def finalize (p : ParserState) : List Instruction × List (String × Nat) :=
  (p.main ++ [Instruction.Halt] ++ p.definitions, p.dictionary)

/-! ## Reference model for straight-line programs (spec §4.1 / §8) -/

/-- The zero-operand stack/arithmetic instructions plus `Push`: the
instructions allowed in a straight-line (branch/call-free) program. -/
def isSimple : Instruction → Bool
  | .Push _ | .Add | .Mul | .Dup | .Drop | .Swap | .Over | .Rot | .Nip | .Tuck
  | .TwoDup | .TwoDrop | .TwoSwap | .Depth => true
  | _ => false

/-- Modelled from the spec: the per-instruction stack transformation of
§4.1, written directly from the spec's tuple notation with the stack as a
list whose head is the top ("(a,b) with b on top" is `b :: a :: _`);
`none` when the stack holds fewer values than required. -/
def specEffect : Instruction → List Int → Option (List Int)
  | .Push v, st => some (v :: st)
  | .Add, b :: a :: r => some (wrap32 (a + b) :: r)
  | .Mul, b :: a :: r => some (wrap32 (a * b) :: r)
  | .Dup, t :: r => some (t :: t :: r)
  | .Drop, _ :: r => some r
  | .Swap, b :: a :: r => some (a :: b :: r)
  | .Over, b :: a :: r => some (a :: b :: a :: r)
  | .Rot, c :: b :: a :: r => some (a :: c :: b :: r)
  | .Nip, b :: _ :: r => some (b :: r)
  | .Tuck, b :: a :: r => some (b :: a :: b :: r)
  | .TwoDup, b :: a :: r => some (b :: a :: b :: a :: r)
  | .TwoDrop, _ :: _ :: r => some r
  | .TwoSwap, d :: c :: b :: a :: r => some (b :: a :: d :: c :: r)
  | .Depth, st => some (wrap32 st.length :: st)
  | _, _ => none

/-- Applying each instruction's specified stack transformation in sequence. -/
def specRun : List Instruction → List Int → Option (List Int)
  | [], st => some st
  | i :: rest, st =>
    match specEffect i st with
    | some st' => specRun rest st'
    | none => none

/-- Required stack depth per instruction (spec §7 table, with `IfZero`
at its actual requirement of one popped value). -/
def minOps : Instruction → Nat
  | .Dup | .Drop | .IfZero _ => 1
  | .Add | .Mul | .Swap | .Over | .Nip | .Tuck | .TwoDup | .TwoDrop => 2
  | .Rot => 3
  | .TwoSwap => 4
  | _ => 0

/-- The instructions that pop or inspect the evaluation stack and can
therefore underflow. -/
def needsStack : Instruction → Bool
  | .Add | .Mul | .Dup | .Drop | .Swap | .Over | .Rot | .Nip | .Tuck
  | .TwoDup | .TwoDrop | .TwoSwap | .IfZero _ => true
  | _ => false

/-! ## Structured source programs

A well-formed source text is a sequence of segments: single main-body
tokens and complete `: name body ;` definition blocks.  This family covers
every input in which definitions are properly terminated and neither the
main body nor a definition body contains a bare `:` or `;`. -/

/-- A token that is not a definition delimiter. -/
def plainTok (t : String) : Prop := t ≠ ":" ∧ t ≠ ";"

/-- One segment of a source program. -/
inductive Seg where
  | tok (w : String)
  | blk (name : String) (body : List String)
  deriving DecidableEq, Repr

/-- The token stream of one segment. -/
def segTokens : Seg → List String
  | .tok w => [w]
  | .blk n b => ":" :: n :: (b ++ [";"])

/-- The token stream of a whole segment list. -/
def progTokens : List Seg → List String
  | [] => []
  | g :: rest => segTokens g ++ progTokens rest

/-- Well-formedness of a segment: its non-delimiter tokens are plain. -/
def segWF : Seg → Prop
  | .tok w => plainTok w
  | .blk _ b => ∀ t ∈ b, plainTok t

/-- Whether a segment is a definition block named `w`. -/
def blkNamed (w : String) : Seg → Prop
  | .tok _ => False
  | .blk n _ => n = w

/-- The compiled body of one definition: its tokens followed by the
`Return` appended at the closing `;`. -/
def compileBody (body : List String) : List Instruction :=
  body.map tokInstr ++ [.Return]

/-- Main-body instructions contributed by a segment list. -/
def mainInstrs : List Seg → List Instruction
  | [] => []
  | .tok w :: rest => tokInstr w :: mainInstrs rest
  | .blk _ _ :: rest => mainInstrs rest

/-- Definition-buffer instructions contributed by a segment list. -/
def defInstrs : List Seg → List Instruction
  | [] => []
  | .tok _ :: rest => defInstrs rest
  | .blk _ b :: rest => compileBody b ++ defInstrs rest

/-- Dictionary bindings contributed by a segment list, most recent first,
when parsing starts with `m` main instructions and `d` definition
instructions already emitted. -/
def dictEntries (m d : Nat) : List Seg → List (String × Nat)
  | [] => []
  | .tok _ :: rest => dictEntries (m + 1) d rest
  | .blk n b :: rest => dictEntries m (d + (b.length + 1)) rest ++ [(n, m + d + 1)]

/-- The parser-state update performed by one segment. -/
def applySeg (p : ParserState) : Seg → ParserState
  | .tok w => { p with main := p.main ++ [tokInstr w] }
  | .blk n b =>
    { p with
      dictionary := (n, p.main.length + p.definitions.length + 1) :: p.dictionary,
      definitions := p.definitions ++ compileBody b }

/-- The parser-state update performed by a segment list. -/
def applySegs : List Seg → ParserState → ParserState
  | [], p => p
  | g :: gs, p => applySegs gs (applySeg p g)

end TinyForth

namespace TinyForth

/-! ## General lemmas about the VM step -/

/-- For ip below `2^63` (always the case for an index into a Rust `Vec`),
a zero offset leaves the instruction pointer where it was. -/
theorem branchTarget_zero (ip : Nat) (h : ip < 2 ^ 63) : branchTarget ip 0 = ip := by
  simp only [branchTarget, toIsize, toUsize, if_pos h, Int.add_zero]
  omega

/-- Landing exactly where the while-loop condition fails: `stepVM` reports
a normal halt with the state untouched. -/
theorem stepVM_halted_of_oob (s : VMState) (h : s.program.length ≤ s.ip) :
    stepVM s = .halted s := by
  have : s.program[s.ip]? = none := by
    rw [List.getElem?_eq_none_iff]
    exact h
  simp [stepVM, this]

/-- `runFuel` keeps reporting a normal halt once the instruction pointer is
out of bounds, whatever the fuel. -/
theorem runFuel_halted_of_oob (s : VMState) (h : s.program.length ≤ s.ip) (fuel : Nat) :
    runFuel (fuel + 1) s = .halted s := by
  simp [runFuel, stepVM_halted_of_oob s h]

/-- On the straight-line instructions the VM step agrees with the
specified stack transformation: success advances the instruction pointer
by one with the transformed stack, failure is a `StackUnderflow`. -/
theorem stepVM_eq_of_simple (s : VMState) (i : Instruction)
    (hi : s.program[s.ip]? = some i) (hs : isSimple i = true) :
    stepVM s =
      match specEffect i s.stack with
      | some st' => .next { s with stack := st', ip := s.ip + 1 }
      | none => .fatal VMError.StackUnderflow := by
  cases i <;> simp only [isSimple, Bool.false_eq_true] at hs <;>
    simp only [stepVM, hi] <;>
    rcases s.stack with _ | ⟨x1, _ | ⟨x2, _ | ⟨x3, _ | ⟨x4, r⟩⟩⟩⟩ <;>
    simp [specEffect]

/-- A too-shallow stack makes every specified stack transformation of a
stack-consuming instruction undefined. -/
theorem specEffect_none_of_short (i : Instruction) (st : List Int)
    (hn : needsStack i = true) (h : st.length < minOps i) :
    specEffect i st = none := by
  cases i <;> simp only [needsStack, Bool.false_eq_true] at hn <;>
    rcases st with _ | ⟨x1, _ | ⟨x2, _ | ⟨x3, _ | ⟨x4, r⟩⟩⟩⟩ <;>
    simp [minOps] at h ⊢ <;> simp [specEffect] <;> omega

/-! ## Claim theorems: per-instruction behaviour -/

/-- C4 (amended): every stack-consuming instruction executed on a stack
holding fewer values than its required minimum fails with a fatal
`StackUnderflow`, where the minimum is 1 for `Dup`, `Drop` and `IfZero`,
2 for `Add`, `Mul`, `Swap`, `Over`, `Nip`, `Tuck`, `TwoDup` and `TwoDrop`,
3 for `Rot`, and 4 for `TwoSwap`. -/
theorem stack_underflow_below_min (s : VMState) (i : Instruction)
    (hi : s.program[s.ip]? = some i) (hneed : needsStack i = true)
    (hshort : s.stack.length < minOps i) :
    stepVM s = .fatal VMError.StackUnderflow := by
  by_cases hs : isSimple i = true
  · rw [stepVM_eq_of_simple s i hi hs, specEffect_none_of_short i s.stack hneed hshort]
  · have hIf : ∃ off, i = Instruction.IfZero off := by
      cases i <;> first | exact ⟨_, rfl⟩ | simp_all [needsStack, isSimple]
    obtain ⟨off, rfl⟩ := hIf
    have hnil : s.stack = [] := by
      simp only [minOps] at hshort
      exact List.length_eq_zero.mp (by omega)
    simp [stepVM, hi, hnil]

/-- Witness for `stack_underflow_below_min`: `Add` on an empty stack. -/
theorem stack_underflow_below_min_witness :
    stepVM { stack := [], program := [Instruction.Add], ip := 0,
             return_stack := [], dictionary := [] } = .fatal VMError.StackUnderflow :=
  stack_underflow_below_min _ _ rfl rfl (by decide)

/-- C4 counterexample: executing `IfZero` with exactly one value on the
stack is not a `StackUnderflow` — the single value is popped and, being
non-zero, execution falls through; so the claimed minimum of 2 for
`IfZero` does not match the code. -/
theorem ifzero_singleton_not_underflow :
    stepVM { stack := [5], program := [Instruction.IfZero 0], ip := 0,
             return_stack := [], dictionary := [] } =
      .next { stack := [], program := [Instruction.IfZero 0], ip := 1,
              return_stack := [], dictionary := [] } ∧
    stepVM { stack := [5], program := [Instruction.IfZero 0], ip := 0,
             return_stack := [], dictionary := [] } ≠
      .fatal VMError.StackUnderflow := by
  constructor <;> decide

/-- C5: with at least two values `(a,b)` (`b` on top), `Tuck` produces
top three values `(b,a,b)` with deeper values unchanged; with fewer than
two values it is a fatal `StackUnderflow`. -/
theorem tuck_step (s : VMState) (hi : s.program[s.ip]? = some Instruction.Tuck) :
    (∀ (a b : Int) (r : List Int), s.stack = b :: a :: r →
      stepVM s = .next { s with stack := b :: a :: b :: r, ip := s.ip + 1 }) ∧
    (s.stack.length < 2 → stepVM s = .fatal VMError.StackUnderflow) := by
  constructor
  · intro a b r hst
    simp [stepVM, hi, hst]
  · intro hshort
    simp only [stepVM, hi]
    revert hshort
    rcases s.stack with _ | ⟨x1, _ | ⟨x2, r⟩⟩ <;> intro hshort <;>
      first | rfl | (simp at hshort; omega)

/-- Witness for `tuck_step`: `Tuck` on stack `(1,2)` (2 on top) gives
`(2,1,2)`. -/
theorem tuck_step_witness :
    stepVM { stack := [2, 1], program := [Instruction.Tuck], ip := 0,
             return_stack := [], dictionary := [] } =
      .next { stack := [2, 1, 2], program := [Instruction.Tuck], ip := 1,
              return_stack := [], dictionary := [] } :=
  (tuck_step { stack := [2, 1], program := [Instruction.Tuck], ip := 0,
               return_stack := [], dictionary := [] } rfl).1 1 2 [] rfl

/-- C6: `CallWord(name)` with `name` absent from the dictionary is a fatal
`UnknownWord` (no control transfer); with `name` bound to `addr` it pushes
`ip + 1` on the return stack and jumps to `addr`, leaving the evaluation
stack unchanged — exactly the behaviour of `Call(addr)`. -/
theorem callword_step (s : VMState) (name : String)
    (hi : s.program[s.ip]? = some (Instruction.CallWord name)) :
    (lookupD s.dictionary name = none → stepVM s = .fatal VMError.UnknownWord) ∧
    (∀ addr, lookupD s.dictionary name = some addr →
      stepVM s = .next { s with return_stack := (s.ip + 1) :: s.return_stack, ip := addr } ∧
      ∀ t : VMState, t.program[t.ip]? = some (Instruction.Call addr) →
        stepVM t = .next { t with return_stack := (t.ip + 1) :: t.return_stack, ip := addr }) := by
  refine ⟨fun h => by simp [stepVM, hi, h],
          fun addr h => ⟨by simp [stepVM, hi, h], fun t ht => by simp [stepVM, ht]⟩⟩

/-- Witness for `callword_step`: an unbound word faults, a bound word
transfers control like `Call`. -/
theorem callword_step_witness :
    stepVM { stack := [], program := [Instruction.CallWord "w"], ip := 0,
             return_stack := [], dictionary := [] } = .fatal VMError.UnknownWord ∧
    stepVM { stack := [7], program := [Instruction.CallWord "sq"], ip := 0,
             return_stack := [], dictionary := [("sq", 3)] } =
      .next { stack := [7], program := [Instruction.CallWord "sq"], ip := 3,
              return_stack := [1], dictionary := [("sq", 3)] } :=
  ⟨(callword_step { stack := [], program := [Instruction.CallWord "w"], ip := 0,
                    return_stack := [], dictionary := [] } "w" rfl).1 rfl,
   ((callword_step { stack := [7], program := [Instruction.CallWord "sq"], ip := 0,
                     return_stack := [], dictionary := [("sq", 3)] } "sq" rfl).2 3 rfl).1⟩

/-- C7: two consecutive `TwoSwap` instructions on a stack with at least
four values restore the original stack arrangement. -/
theorem twoswap_involution (s : VMState) (d c b a : Int) (r : List Int)
    (h1 : s.program[s.ip]? = some Instruction.TwoSwap)
    (h2 : s.program[s.ip + 1]? = some Instruction.TwoSwap)
    (hst : s.stack = d :: c :: b :: a :: r) :
    ∃ s1 s2, stepVM s = .next s1 ∧ stepVM s1 = .next s2 ∧
      s2.stack = s.stack ∧ s2.ip = s.ip + 2 := by
  refine ⟨{ s with stack := b :: a :: d :: c :: r, ip := s.ip + 1 },
          { s with stack := d :: c :: b :: a :: r, ip := s.ip + 1 + 1 }, ?_, ?_, ?_, ?_⟩
  · simp [stepVM, h1, hst]
  · simp [stepVM, h2]
  · simp [hst]
  · simp

/-- Witness for `twoswap_involution`: `2SWAP 2SWAP` on `[4,3,2,1]`. -/
theorem twoswap_involution_witness : ∃ s1 s2,
    stepVM { stack := [4, 3, 2, 1], program := [Instruction.TwoSwap, Instruction.TwoSwap],
             ip := 0, return_stack := [], dictionary := [] } = .next s1 ∧
    stepVM s1 = .next s2 ∧
    s2.stack = [4, 3, 2, 1] ∧ s2.ip = 2 :=
  twoswap_involution { stack := [4, 3, 2, 1],
                       program := [Instruction.TwoSwap, Instruction.TwoSwap],
                       ip := 0, return_stack := [], dictionary := [] } 4 3 2 1 [] rfl rfl rfl

/-- C8: `Jump(0)` sets the instruction pointer to `ip + 0`, leaving the
whole state unchanged, so `run()` never terminates: every fuel bound is
exhausted.  (`ip < 2^63` always holds for an index into a Rust `Vec`,
whose length is bounded by `isize::MAX`.) -/
theorem jump_zero_loops (s : VMState) (hi : s.program[s.ip]? = some (Instruction.Jump 0))
    (hip : s.ip < 2 ^ 63) :
    stepVM s = .next s ∧ ∀ fuel, runFuel fuel s = .outOfFuel s := by
  have hstep : stepVM s = .next s := by
    have hb := branchTarget_zero s.ip hip
    simp [stepVM, hi, hb]
  refine ⟨hstep, ?_⟩
  intro fuel
  induction fuel with
  | zero => rfl
  | succ n ih => simp [runFuel, hstep, ih]

/-- Witness for `jump_zero_loops`: a one-instruction `Jump(0)` program. -/
theorem jump_zero_loops_witness :
    stepVM { stack := [], program := [Instruction.Jump 0], ip := 0,
             return_stack := [], dictionary := [] } =
      .next { stack := [], program := [Instruction.Jump 0], ip := 0,
              return_stack := [], dictionary := [] } ∧
    runFuel 5 { stack := [], program := [Instruction.Jump 0], ip := 0,
                return_stack := [], dictionary := [] } =
      .outOfFuel { stack := [], program := [Instruction.Jump 0], ip := 0,
                   return_stack := [], dictionary := [] } :=
  ⟨(jump_zero_loops { stack := [], program := [Instruction.Jump 0], ip := 0,
                      return_stack := [], dictionary := [] } rfl (by decide)).1,
   (jump_zero_loops { stack := [], program := [Instruction.Jump 0], ip := 0,
                      return_stack := [], dictionary := [] } rfl (by decide)).2 5⟩

/-! ## Parser runs over structured source programs -/

/-- One non-delimiter token: buffered inside a definition, appended to the
main body outside one. -/
theorem parseLoop_cons_plain (t : String) (rest : List String) (defining : Option String)
    (buf : List Instruction) (p : ParserState) (h1 : t ≠ ":") (h2 : t ≠ ";") :
    parseLoop (t :: rest) defining buf p =
      match defining with
      | some d => parseLoop rest (some d) (buf ++ [tokInstr t]) p
      | none => parseLoop rest none buf { p with main := p.main ++ [tokInstr t] } := by
  cases rest <;> cases defining <;> simp [parseLoop, if_neg h1, if_neg h2]

/-- A closing `;` inside a definition: append `Return`, record the address
`len(main) + len(definitions) + 1`, move the buffer into the definitions. -/
theorem parseLoop_cons_semi (rest : List String) (name : String) (buf : List Instruction)
    (p : ParserState) :
    parseLoop (";" :: rest) (some name) buf p =
      parseLoop rest none []
        { p with
          dictionary := (name, p.main.length + p.definitions.length + 1) :: p.dictionary,
          definitions := p.definitions ++ buf ++ [.Return] } := by
  cases rest <;> simp [parseLoop]

/-- An opening `:` consumes the following token as the word name and
clears the buffer, discarding any previously pending definition. -/
theorem parseLoop_cons_colon (name : String) (rest : List String) (d0 : Option String)
    (buf : List Instruction) (p : ParserState) :
    parseLoop (":" :: name :: rest) d0 buf p = parseLoop rest (some name) [] p := by
  cases d0 <;> cases rest <;> simp [parseLoop]

/-- While a definition is open, plain tokens are appended to the buffer. -/
theorem parseLoop_body (b : List String) :
    ∀ (rest : List String) (d : String) (buf : List Instruction) (p : ParserState),
    (∀ t ∈ b, plainTok t) →
    parseLoop (b ++ rest) (some d) buf p =
      parseLoop rest (some d) (buf ++ b.map tokInstr) p := by
  induction b with
  | nil => intro rest d buf p _; simp
  | cons t ts ih =>
    intro rest d buf p hWF
    obtain ⟨h1, h2⟩ := hWF t (by simp)
    rw [List.cons_append, parseLoop_cons_plain t _ _ _ _ h1 h2]
    show parseLoop (ts ++ rest) (some d) (buf ++ [tokInstr t]) p = _
    rw [ih rest d (buf ++ [tokInstr t]) p (fun u hu => hWF u (by simp [hu]))]
    simp

/-- Outside a definition, a plain token is appended to the main body. -/
theorem parseLoop_tok (t : String) (rest : List String) (buf : List Instruction)
    (p : ParserState) (h : plainTok t) :
    parseLoop (t :: rest) none buf p =
      parseLoop rest none buf { p with main := p.main ++ [tokInstr t] } := by
  obtain ⟨h1, h2⟩ := h
  rw [parseLoop_cons_plain t rest none buf p h1 h2]

/-- A whole `: name body ;` block: the body is compiled and moved into the
definitions buffer, and the dictionary gains the address
`len(main) + len(definitions) + 1` computed at the closing `;`.  The
opening `:` discards whatever definition state was pending. -/
theorem parseLoop_blk (n : String) (b : List String) (rest : List String)
    (d0 : Option String) (buf0 : List Instruction) (p : ParserState)
    (hb : ∀ t ∈ b, plainTok t) :
    parseLoop (segTokens (.blk n b) ++ rest) d0 buf0 p =
      parseLoop rest none [] (applySeg p (.blk n b)) := by
  have hsplit : segTokens (Seg.blk n b) ++ rest = ":" :: n :: (b ++ (";" :: rest)) := by
    simp [segTokens]
  rw [hsplit, parseLoop_cons_colon, parseLoop_body b (";" :: rest) n [] p hb,
    parseLoop_cons_semi]
  simp [applySeg, compileBody, List.append_assoc]

/-- Running the parser over a segment list folds `applySeg`. -/
theorem parseLoop_segs (segs : List Seg) :
    ∀ (buf : List Instruction) (p : ParserState), (∀ g ∈ segs, segWF g) →
    parseLoop (progTokens segs) none buf p = .ok (applySegs segs p) := by
  induction segs with
  | nil => intro buf p _; simp [progTokens, parseLoop, applySegs]
  | cons g gs ih =>
    intro buf p hWF
    cases g with
    | tok w =>
      have hw : plainTok w := hWF (.tok w) (by simp)
      rw [progTokens]
      show parseLoop (w :: progTokens gs) none buf p = _
      rw [parseLoop_tok w _ buf p hw, ih buf _ (fun u hu => hWF u (by simp [hu]))]
      simp [applySegs, applySeg]
    | blk n b =>
      have hb : ∀ t ∈ b, plainTok t := hWF (.blk n b) (by simp [segWF])
      rw [progTokens, parseLoop_blk n b _ none buf p hb,
        ih [] _ (fun u hu => hWF u (by simp [hu]))]
      simp [applySegs]

/-- The main body after a segment list: previous main plus the tokens of
the `tok` segments, in order. -/
theorem applySegs_main (segs : List Seg) :
    ∀ p : ParserState, (applySegs segs p).main = p.main ++ mainInstrs segs := by
  induction segs with
  | nil => intro p; simp [applySegs, mainInstrs]
  | cons g gs ih =>
    intro p
    cases g with
    | tok w => simp [applySegs, applySeg, mainInstrs, ih]
    | blk n b => simp [applySegs, applySeg, mainInstrs, ih]

/-- The definitions buffer after a segment list: previous buffer plus the
compiled bodies of the `blk` segments, in order. -/
theorem applySegs_defs (segs : List Seg) :
    ∀ p : ParserState,
      (applySegs segs p).definitions = p.definitions ++ defInstrs segs := by
  induction segs with
  | nil => intro p; simp [applySegs, defInstrs]
  | cons g gs ih =>
    intro p
    cases g with
    | tok w => simp [applySegs, applySeg, defInstrs, ih]
    | blk n b => simp [applySegs, applySeg, defInstrs, ih]

/-- The dictionary after a segment list: the new bindings (most recent
first) in front of the previous dictionary. -/
theorem applySegs_dict (segs : List Seg) :
    ∀ p : ParserState,
      (applySegs segs p).dictionary =
        dictEntries p.main.length p.definitions.length segs ++ p.dictionary := by
  induction segs with
  | nil => intro p; simp [applySegs, dictEntries]
  | cons g gs ih =>
    intro p
    cases g with
    | tok w =>
      show (applySegs gs (applySeg p (.tok w))).dictionary = _
      rw [ih]
      simp [applySeg, dictEntries]
    | blk n b =>
      show (applySegs gs (applySeg p (.blk n b))).dictionary = _
      rw [ih]
      simp [applySeg, dictEntries, compileBody]

/-- Main-body instructions distribute over segment-list append. -/
theorem mainInstrs_append (X Y : List Seg) :
    mainInstrs (X ++ Y) = mainInstrs X ++ mainInstrs Y := by
  induction X with
  | nil => simp [mainInstrs]
  | cons g gs ih => cases g <;> simp [mainInstrs, ih]

/-- Definition instructions distribute over segment-list append. -/
theorem defInstrs_append (X Y : List Seg) :
    defInstrs (X ++ Y) = defInstrs X ++ defInstrs Y := by
  induction X with
  | nil => simp [defInstrs]
  | cons g gs ih => cases g <;> simp [defInstrs, ih]

/-- Dictionary bindings of an appended segment list: the second part sees
the lengths accumulated by the first. -/
theorem dictEntries_append (X : List Seg) :
    ∀ (Y : List Seg) (m d : Nat),
      dictEntries m d (X ++ Y) =
        dictEntries (m + (mainInstrs X).length) (d + (defInstrs X).length) Y ++
          dictEntries m d X := by
  induction X with
  | nil => intro Y m d; simp [mainInstrs, defInstrs, dictEntries]
  | cons g gs ih =>
    intro Y m d
    cases g with
    | tok u =>
      show dictEntries (m + 1) d (gs ++ Y) = _
      rw [ih Y (m + 1) d]
      have h1 : m + 1 + (mainInstrs gs).length =
          m + (mainInstrs (Seg.tok u :: gs)).length := by
        simp [mainInstrs]
        omega
      rw [h1]
      rfl
    | blk n b =>
      show dictEntries m (d + (b.length + 1)) (gs ++ Y) ++ [(n, m + d + 1)] = _
      rw [ih Y m (d + (b.length + 1))]
      have h2 : d + (b.length + 1) + (defInstrs gs).length =
          d + (defInstrs (Seg.blk n b :: gs)).length := by
        simp [defInstrs, compileBody]
        omega
      rw [List.append_assoc, h2]
      rfl

/-- Looking a key up past bindings that do not carry it. -/
theorem lookupD_append_of_no_key (xs ys : List (String × Nat)) (w : String)
    (h : ∀ e ∈ xs, e.1 ≠ w) : lookupD (xs ++ ys) w = lookupD ys w := by
  induction xs with
  | nil => rfl
  | cons e es ih =>
    rcases e with ⟨k, v⟩
    have hk : k ≠ w := h (k, v) (by simp)
    simp only [List.cons_append, lookupD, if_neg hk]
    exact ih (fun u hu => h u (by simp [hu]))

/-- Every dictionary binding produced by a segment list carries the name
of one of its definition blocks. -/
theorem dictEntries_keys (segs : List Seg) (w : String) :
    ∀ (m d : Nat), (∀ g ∈ segs, ¬ blkNamed w g) →
    ∀ e ∈ dictEntries m d segs, e.1 ≠ w := by
  induction segs with
  | nil => intro m d _ e he; simp [dictEntries] at he
  | cons g gs ih =>
    intro m d h e he
    cases g with
    | tok u =>
      exact ih (m + 1) d (fun g hg => h g (by simp [hg])) e he
    | blk n b =>
      simp only [dictEntries, List.mem_append, List.mem_singleton] at he
      rcases he with he | he
      · exact ih m (d + (b.length + 1)) (fun g hg => h g (by simp [hg])) e he
      · subst he
        intro hq
        exact h (Seg.blk n b) (by simp) (by simpa [blkNamed] using hq)

/-! ## Straight-line programs: reference-model equivalence -/

/-- Running the VM over a straight-line block agrees with folding the
specified stack transformations, from any position in the program.
`pre` is the already-executed part of the program; `tail` is the optional
trailing `Halt`. -/
theorem runFuel_straightline (body : List Instruction) :
    ∀ (pre tail : List Instruction) (s : VMState) (st' : List Int),
    (tail = [] ∨ tail = [Instruction.Halt]) →
    s.program = pre ++ body ++ tail → s.ip = pre.length →
    (∀ i ∈ body, isSimple i = true) →
    specRun body s.stack = some st' →
    ∃ s', runFuel (body.length + 1) s = .halted s' ∧ s'.stack = st' := by
  induction body with
  | nil =>
    intro pre tail s st' htail hprog hip _ hrun
    have hst : st' = s.stack := by
      simpa [specRun] using hrun.symm
    refine ⟨s, ?_, hst.symm⟩
    have hstep : stepVM s = .halted s := by
      rcases htail with h | h
      · apply stepVM_halted_of_oob
        simp [hprog, h, hip]
      · have : s.program[s.ip]? = some Instruction.Halt := by
          subst h
          rw [hprog, hip]
          rw [List.getElem?_append_right (by simp)]
          simp
        simp [stepVM, this]
    simp [runFuel, hstep]
  | cons i rest ih =>
    intro pre tail s st' htail hprog hip hsimple hrun
    have hprog2 : s.program = pre ++ ((i :: rest) ++ tail) := by
      rw [hprog, List.append_assoc]
    have hi : s.program[s.ip]? = some i := by
      rw [hprog2, hip]
      rw [List.getElem?_append_right (by simp)]
      simp
    have hs : isSimple i = true := hsimple i (by simp)
    obtain ⟨st1, heff, hrest⟩ : ∃ st1, specEffect i s.stack = some st1 ∧
        specRun rest st1 = some st' := by
      revert hrun
      simp only [specRun]
      rcases specEffect i s.stack with _ | st1
      · intro h; cases h
      · intro h; exact ⟨st1, rfl, h⟩
    have hstep : stepVM s = .next { s with stack := st1, ip := s.ip + 1 } := by
      rw [stepVM_eq_of_simple s i hi hs, heff]
    have hrunstep : runFuel ((i :: rest).length + 1) s =
        runFuel (rest.length + 1) { s with stack := st1, ip := s.ip + 1 } := by
      show runFuel (rest.length + 1 + 1) s = _
      simp [runFuel, hstep]
    rw [hrunstep]
    exact ih (pre ++ [i]) tail { s with stack := st1, ip := s.ip + 1 } st' htail
      (by simp [hprog]) (by simp [hip]) (fun j hj => hsimple j (by simp [hj])) hrest

/-- C1: a program made of `Push` and the zero-operand stack/arithmetic
instructions only (optionally ending in a single `Halt`), started from the
initial VM state, terminates whenever every instruction finds its required
stack values, and the final evaluation stack equals the fold of the
specified per-instruction stack transformations. -/
theorem straightline_refmodel (body tail : List Instruction) (st' : List Int)
    (htail : tail = [] ∨ tail = [Instruction.Halt])
    (hsimple : ∀ i ∈ body, isSimple i = true)
    (href : specRun body [] = some st') :
    ∃ s', runFuel (body.length + 1) (VMState.new (body ++ tail)) = .halted s' ∧
      s'.stack = st' :=
  runFuel_straightline body [] tail (VMState.new (body ++ tail)) st' htail
    (by simp [VMState.new]) (by simp [VMState.new]) hsimple href

/-- Witness for `straightline_refmodel`: the spec §8 example program
`[Push 2, Push 3, Add, Push 4, Mul, Halt]` runs to final stack `[20]`. -/
theorem straightline_refmodel_witness :
    ∃ s', runFuel 6 (VMState.new [Instruction.Push 2, Instruction.Push 3, Instruction.Add,
        Instruction.Push 4, Instruction.Mul, Instruction.Halt]) = .halted s' ∧
      s'.stack = [20] :=
  straightline_refmodel
    [Instruction.Push 2, Instruction.Push 3, Instruction.Add,
     Instruction.Push 4, Instruction.Mul] [Instruction.Halt] [20]
    (Or.inr rfl) (by decide) (by decide)

/-- C3: parsing the source text `"5 square : square dup * ;"`, finalizing,
installing the dictionary, and running yields final stack `[25]`. -/
theorem square_source_runs_to_25 :
    ∃ p s, parseText "5 square : square dup * ;" = Except.ok p ∧
      runFuel 10 { VMState.new (finalize p).1 with dictionary := (finalize p).2 } =
        RunResult.halted s ∧
      s.stack = [25] := by
  refine ⟨{ main := [Instruction.Push 5, Instruction.CallWord "square"],
            definitions := [Instruction.Dup, Instruction.Mul, Instruction.Return],
            dictionary := [("square", 3)] },
          { stack := [25],
            program := [Instruction.Push 5, Instruction.CallWord "square",
                        Instruction.Halt, Instruction.Dup, Instruction.Mul,
                        Instruction.Return],
            ip := 2, return_stack := [], dictionary := [("square", 3)] },
          ?_, ?_, rfl⟩
  · rfl
  · rfl

/-- C9: once the instruction pointer is at or beyond the program length,
`run()` returns normally with the evaluation stack preserved as-is; in
particular a `Jump` whose signed target is negative wraps through the
`as usize` cast to an index at least `2^63`, out of bounds for any real
program, and the run then halts normally one step later with the stack
unchanged. -/
theorem run_normal_when_oob (s : VMState) :
    (s.program.length ≤ s.ip →
      ∀ fuel, stepVM s = .halted s ∧ runFuel (fuel + 1) s = .halted s) ∧
    (∀ (off : Int) (fuel : Nat), s.program[s.ip]? = some (Instruction.Jump off) →
      toIsize s.ip + off < 0 → -(2 ^ 63) ≤ toIsize s.ip + off →
      s.program.length < 2 ^ 63 →
      2 ^ 63 ≤ branchTarget s.ip off ∧
      stepVM s = .next { s with ip := branchTarget s.ip off } ∧
      runFuel (fuel + 2) s = .halted { s with ip := branchTarget s.ip off }) := by
  constructor
  · intro h fuel
    exact ⟨stepVM_halted_of_oob s h, runFuel_halted_of_oob s h fuel⟩
  · intro off fuel hi hneg hlow hlen
    have hb : 2 ^ 63 ≤ branchTarget s.ip off := by
      simp only [branchTarget, toUsize]
      omega
    have hstep : stepVM s = .next { s with ip := branchTarget s.ip off } := by
      simp [stepVM, hi]
    refine ⟨hb, hstep, ?_⟩
    have hrest : runFuel (fuel + 2) s =
        runFuel (fuel + 1) { s with ip := branchTarget s.ip off } := by
      show runFuel (fuel + 1 + 1) s = _
      simp [runFuel, hstep]
    rw [hrest]
    exact runFuel_halted_of_oob _ (by show s.program.length ≤ branchTarget s.ip off; omega) fuel

/-- Witness for `run_normal_when_oob`: an empty program with `ip = 5`
halts as-is, and `Jump(-1)` at `ip = 0` wraps to `2^64 - 1` and halts
normally with the stack untouched. -/
theorem run_normal_when_oob_witness :
    (stepVM { stack := [9], program := [], ip := 5, return_stack := [], dictionary := [] } =
      .halted { stack := [9], program := [], ip := 5, return_stack := [], dictionary := [] } ∧
     runFuel 4 { stack := [9], program := [], ip := 5, return_stack := [], dictionary := [] } =
      .halted { stack := [9], program := [], ip := 5, return_stack := [], dictionary := [] }) ∧
    (2 ^ 63 ≤ branchTarget 0 (-1) ∧
     stepVM { stack := [9], program := [Instruction.Jump (-1)], ip := 0,
              return_stack := [], dictionary := [] } =
      .next { stack := [9], program := [Instruction.Jump (-1)], ip := branchTarget 0 (-1),
              return_stack := [], dictionary := [] } ∧
     runFuel 3 { stack := [9], program := [Instruction.Jump (-1)], ip := 0,
                 return_stack := [], dictionary := [] } =
      .halted { stack := [9], program := [Instruction.Jump (-1)], ip := branchTarget 0 (-1),
                return_stack := [], dictionary := [] }) :=
  ⟨(run_normal_when_oob { stack := [9], program := [], ip := 5,
                          return_stack := [], dictionary := [] }).1 (by decide) 3,
   (run_normal_when_oob { stack := [9], program := [Instruction.Jump (-1)], ip := 0,
                          return_stack := [], dictionary := [] }).2 (-1) 1 rfl
     (by decide) (by decide) (by decide)⟩

/-! ## Claim theorems: parser address resolution -/

/-- C2 (amended): for a source program of main tokens and complete
definition blocks in which no main-body token follows the closing `;` of
the word `w` (and `w` is not redefined later), the dictionary address of
`w` — computed at its `;` as `len(main-so-far) + len(definitions-so-far)
+ 1` — equals the index of the first instruction of `w`'s compiled body in
the finalized instruction list. -/
theorem word_addresses_correct (A B : List Seg) (w : String) (b : List String)
    (hWF : ∀ g ∈ A ++ Seg.blk w b :: B, segWF g)
    (hnoMain : mainInstrs B = [])
    (hnotRedef : ∀ g ∈ B, ¬ blkNamed w g) :
    ∃ p, parseLoop (progTokens (A ++ Seg.blk w b :: B)) none []
        { main := [], definitions := [], dictionary := [] } = .ok p ∧
      lookupD p.dictionary w =
        some ((mainInstrs A).length + (defInstrs A).length + 1) ∧
      (finalize p).1.drop ((mainInstrs A).length + (defInstrs A).length + 1) =
        compileBody b ++ defInstrs B := by
  refine ⟨applySegs (A ++ Seg.blk w b :: B)
      { main := [], definitions := [], dictionary := [] },
    parseLoop_segs _ [] _ hWF, ?_, ?_⟩
  · have hdict : (applySegs (A ++ Seg.blk w b :: B)
        { main := [], definitions := [], dictionary := [] }).dictionary =
        dictEntries 0 0 (A ++ Seg.blk w b :: B) := by
      rw [applySegs_dict]
      simp
    rw [hdict, dictEntries_append A (Seg.blk w b :: B) 0 0]
    have hblk : dictEntries (0 + (mainInstrs A).length) (0 + (defInstrs A).length)
        (Seg.blk w b :: B) =
        dictEntries (0 + (mainInstrs A).length)
          (0 + (defInstrs A).length + (b.length + 1)) B ++
          [(w, 0 + (mainInstrs A).length + (0 + (defInstrs A).length) + 1)] := rfl
    rw [hblk, List.append_assoc]
    rw [lookupD_append_of_no_key _ _ w (dictEntries_keys B w _ _ hnotRedef)]
    simp [lookupD]
  · have hmain : (applySegs (A ++ Seg.blk w b :: B)
        { main := [], definitions := [], dictionary := [] }).main = mainInstrs A := by
      rw [applySegs_main]
      simp [mainInstrs_append, mainInstrs, hnoMain]
    have hdefs : (applySegs (A ++ Seg.blk w b :: B)
        { main := [], definitions := [], dictionary := [] }).definitions =
        defInstrs A ++ (compileBody b ++ defInstrs B) := by
      rw [applySegs_defs]
      simp [defInstrs_append, defInstrs]
    show ((applySegs (A ++ Seg.blk w b :: B)
        { main := [], definitions := [], dictionary := [] }).main ++ [Instruction.Halt] ++
      (applySegs (A ++ Seg.blk w b :: B)
        { main := [], definitions := [], dictionary := [] }).definitions).drop _ = _
    rw [hmain, hdefs]
    have hre : mainInstrs A ++ [Instruction.Halt] ++
        (defInstrs A ++ (compileBody b ++ defInstrs B)) =
        (mainInstrs A ++ [Instruction.Halt] ++ defInstrs A) ++
          (compileBody b ++ defInstrs B) := by
      simp [List.append_assoc]
    rw [hre, List.drop_left' (by simp; omega)]

/-- Witness for `word_addresses_correct`: the program
`"5 square : square dup * ;"`. -/
theorem word_addresses_correct_witness :
    ∃ p, parseLoop (progTokens [Seg.tok "5", Seg.tok "square",
        Seg.blk "square" ["dup", "*"]]) none []
        { main := [], definitions := [], dictionary := [] } = .ok p ∧
      lookupD p.dictionary "square" =
        some ((mainInstrs [Seg.tok "5", Seg.tok "square"]).length +
          (defInstrs [Seg.tok "5", Seg.tok "square"]).length + 1) ∧
      (finalize p).1.drop ((mainInstrs [Seg.tok "5", Seg.tok "square"]).length +
          (defInstrs [Seg.tok "5", Seg.tok "square"]).length + 1) =
        compileBody ["dup", "*"] ++ defInstrs [] :=
  word_addresses_correct [Seg.tok "5", Seg.tok "square"] [] "square" ["dup", "*"]
    (by
      intro g hg
      fin_cases hg
      · exact ⟨by decide, by decide⟩
      · exact ⟨by decide, by decide⟩
      · intro t ht
        fin_cases ht
        · exact ⟨by decide, by decide⟩
        · exact ⟨by decide, by decide⟩)
    rfl
    (by intro g hg; simp at hg)

/-- C2 counterexample: in `": sq dup * ; 5 sq"` the main body grows after
the definition of `sq` closes, so the dictionary maps `sq` to address 1
while the first instruction of its body (`Dup`) sits at index 3 of the
finalized list — the entry does not equal the body's index. -/
theorem stale_word_address_cex :
    ∃ p, parseText ": sq dup * ; 5 sq" = Except.ok p ∧
      lookupD p.dictionary "sq" = some 1 ∧
      (finalize p).1 =
        [Instruction.Push 5, Instruction.CallWord "sq", Instruction.Halt,
         Instruction.Dup, Instruction.Mul, Instruction.Return] ∧
      (finalize p).1.drop 3 = compileBody ["dup", "*"] ∧
      (finalize p).1[1]? ≠ some Instruction.Dup :=
  ⟨{ main := [Instruction.Push 5, Instruction.CallWord "sq"],
     definitions := [Instruction.Dup, Instruction.Mul, Instruction.Return],
     dictionary := [("sq", 1)] }, rfl, rfl, rfl, rfl, by decide⟩

/-- C10: when a word `w` is defined more than once, the finalized
dictionary maps `w` to the address computed at the closing `;` of the last
definition, while the compiled body of an earlier definition still sits in
the finalized instruction list at its own position. -/
theorem duplicate_definition_last_wins (A B C : List Seg) (w : String) (b1 b2 : List String)
    (hWF : ∀ g ∈ A ++ Seg.blk w b1 :: (B ++ Seg.blk w b2 :: C), segWF g)
    (hnotRedef : ∀ g ∈ C, ¬ blkNamed w g) :
    ∃ p, parseLoop (progTokens (A ++ Seg.blk w b1 :: (B ++ Seg.blk w b2 :: C))) none []
        { main := [], definitions := [], dictionary := [] } = .ok p ∧
      lookupD p.dictionary w =
        some ((mainInstrs (A ++ Seg.blk w b1 :: B)).length +
          (defInstrs (A ++ Seg.blk w b1 :: B)).length + 1) ∧
      (finalize p).1.drop
          ((mainInstrs (A ++ Seg.blk w b1 :: (B ++ Seg.blk w b2 :: C))).length + 1 +
            (defInstrs A).length) =
        compileBody b1 ++ (defInstrs B ++ (compileBody b2 ++ defInstrs C)) := by
  have hsplit : A ++ Seg.blk w b1 :: (B ++ Seg.blk w b2 :: C) =
      (A ++ Seg.blk w b1 :: B) ++ (Seg.blk w b2 :: C) := by
    simp
  refine ⟨applySegs (A ++ Seg.blk w b1 :: (B ++ Seg.blk w b2 :: C))
      { main := [], definitions := [], dictionary := [] },
    parseLoop_segs _ [] _ hWF, ?_, ?_⟩
  · have hdict : (applySegs (A ++ Seg.blk w b1 :: (B ++ Seg.blk w b2 :: C))
        { main := [], definitions := [], dictionary := [] }).dictionary =
        dictEntries 0 0 ((A ++ Seg.blk w b1 :: B) ++ (Seg.blk w b2 :: C)) := by
      rw [applySegs_dict, hsplit]
      simp
    rw [hdict, dictEntries_append (A ++ Seg.blk w b1 :: B) (Seg.blk w b2 :: C) 0 0]
    have hblk : dictEntries (0 + (mainInstrs (A ++ Seg.blk w b1 :: B)).length)
        (0 + (defInstrs (A ++ Seg.blk w b1 :: B)).length) (Seg.blk w b2 :: C) =
        dictEntries (0 + (mainInstrs (A ++ Seg.blk w b1 :: B)).length)
          (0 + (defInstrs (A ++ Seg.blk w b1 :: B)).length + (b2.length + 1)) C ++
          [(w, 0 + (mainInstrs (A ++ Seg.blk w b1 :: B)).length +
            (0 + (defInstrs (A ++ Seg.blk w b1 :: B)).length) + 1)] := rfl
    rw [hblk, List.append_assoc]
    rw [lookupD_append_of_no_key _ _ w (dictEntries_keys C w _ _ hnotRedef)]
    simp [lookupD]
  · have hmain : (applySegs (A ++ Seg.blk w b1 :: (B ++ Seg.blk w b2 :: C))
        { main := [], definitions := [], dictionary := [] }).main =
        mainInstrs (A ++ Seg.blk w b1 :: (B ++ Seg.blk w b2 :: C)) := by
      rw [applySegs_main]
      simp
    have hdefs : (applySegs (A ++ Seg.blk w b1 :: (B ++ Seg.blk w b2 :: C))
        { main := [], definitions := [], dictionary := [] }).definitions =
        defInstrs A ++ (compileBody b1 ++
          (defInstrs B ++ (compileBody b2 ++ defInstrs C))) := by
      rw [applySegs_defs]
      simp [defInstrs_append, defInstrs]
    show ((applySegs (A ++ Seg.blk w b1 :: (B ++ Seg.blk w b2 :: C))
        { main := [], definitions := [], dictionary := [] }).main ++ [Instruction.Halt] ++
      (applySegs (A ++ Seg.blk w b1 :: (B ++ Seg.blk w b2 :: C))
        { main := [], definitions := [], dictionary := [] }).definitions).drop _ = _
    rw [hmain, hdefs]
    have hre : mainInstrs (A ++ Seg.blk w b1 :: (B ++ Seg.blk w b2 :: C)) ++
        [Instruction.Halt] ++ (defInstrs A ++ (compileBody b1 ++
          (defInstrs B ++ (compileBody b2 ++ defInstrs C)))) =
        (mainInstrs (A ++ Seg.blk w b1 :: (B ++ Seg.blk w b2 :: C)) ++
          [Instruction.Halt] ++ defInstrs A) ++
          (compileBody b1 ++ (defInstrs B ++ (compileBody b2 ++ defInstrs C))) := by
      simp [List.append_assoc]
    rw [hre, List.drop_left' (by simp; omega)]

/-- Witness for `duplicate_definition_last_wins`: the program
`": sq dup * ; : sq dup dup * * ;"`. -/
theorem duplicate_definition_last_wins_witness :
    ∃ p, parseLoop (progTokens [Seg.blk "sq" ["dup", "*"],
        Seg.blk "sq" ["dup", "dup", "*", "*"]]) none []
        { main := [], definitions := [], dictionary := [] } = .ok p ∧
      lookupD p.dictionary "sq" =
        some ((mainInstrs [Seg.blk "sq" ["dup", "*"]]).length +
          (defInstrs [Seg.blk "sq" ["dup", "*"]]).length + 1) ∧
      (finalize p).1.drop
          ((mainInstrs [Seg.blk "sq" ["dup", "*"],
            Seg.blk "sq" ["dup", "dup", "*", "*"]]).length + 1 +
            (defInstrs ([] : List Seg)).length) =
        compileBody ["dup", "*"] ++ (defInstrs [] ++
          (compileBody ["dup", "dup", "*", "*"] ++ defInstrs [])) :=
  duplicate_definition_last_wins [] [] [] "sq" ["dup", "*"] ["dup", "dup", "*", "*"]
    (by
      intro g hg
      fin_cases hg
      · intro t ht
        fin_cases ht
        · exact ⟨by decide, by decide⟩
        · exact ⟨by decide, by decide⟩
      · intro t ht
        fin_cases ht
        · exact ⟨by decide, by decide⟩
        · exact ⟨by decide, by decide⟩
        · exact ⟨by decide, by decide⟩
        · exact ⟨by decide, by decide⟩)
    (by intro g hg; simp at hg)

end TinyForth
